import Mathlib

/-!
Verification of the independence-polynomial computation in
`src/find_ind_poly.py` against its specification.

The Python module computes the independence polynomial of a simple
undirected graph by the deletion recurrence
`I(G) = I(G - v) + x * I(G - v - N(v))`, memoized with `functools.lru_cache`,
with coefficients stored in a `numpy` array of dtype `int64`, and finally
renders the coefficient sequence as a string.

Shallow embedding conventions:
* a vertex is a natural number; a graph is given by its node list and a
  Boolean adjacency function `adj` (mirroring `neighbors_dict`: `n` is a
  neighbor of `node` iff `adj node n = true`);
* the `numpy` `int64` coefficients are modelled as integers that are wrapped
  into `[-2^63, 2^63)` after every addition (`wrap64`), exactly as two's
  complement int64 addition behaves;
* the `lru_cache` is modelled as an association list threaded through the
  recursion (its 50,000,000-entry capacity is never reached in any execution
  considered here, so eviction is not modelled);
* `solveW` is the denotation of `_independent_polynomial_recursive` (int64
  coefficients); `solveMemo` is the same computation with the memo cache made
  explicit; `solveMemoD` additionally counts call depth with fuel, modelling
  the interpreter recursion limit; `solveExact` is the exact-integer
  (overflow-free) reference computation used to state correctness.
-/

set_option maxRecDepth 40000

namespace FindIndPoly

/-- Two's-complement wrap of an integer into the `int64` range
`[-2^63, 2^63)`; `9223372036854775808 = 2^63` and
`18446744073709551616 = 2^64`.  This is what a `numpy` `int64` addition does
to the mathematical sum of its operands. -/
def wrap64 (z : ℤ) : ℤ :=
  (z + 9223372036854775808) % 18446744073709551616 - 9223372036854775808

/-- Exact-integer version of the polynomial combination on lines 58-61 of
`find_ind_poly.py`: result length `max (len a) (len b + 1)`, entry `i` is
`a[i] + b[i-1]` (missing entries read as `0`).  This computes `a + x * b`. -/
def addShifted (a b : List ℕ) : List ℕ :=
  (List.range (max a.length (b.length + 1))).map
    (fun i => a.getD i 0 + if i = 0 then 0 else b.getD (i - 1) 0)

/-- The polynomial combination on lines 58-61 of `find_ind_poly.py` with the
source's actual `int64` arithmetic: each entry of the result is the int64
wrap of `a[i] + b[i-1]`. -/
def addShiftedW (a b : List ℤ) : List ℤ :=
  (List.range (max a.length (b.length + 1))).map
    (fun i => wrap64 (a.getD i 0 + if i = 0 then 0 else b.getD (i - 1) 0))

/-- Exact-integer reference denotation of
`_independent_polynomial_recursive` (lines 39-63): base case `[1]`, pivot on
the head, exclude branch on the tail, include branch on the tail with the
pivot's neighbors filtered out, combined with `addShifted`. -/
def solveExact (adj : ℕ → ℕ → Bool) : List ℕ → List ℕ
  | [] => [1]
  | node :: rest =>
    addShifted (solveExact adj rest)
      (solveExact adj (rest.filter fun n => !(adj node n)))
termination_by l => l.length
decreasing_by
  · simp
  · simp only [List.length_cons, Nat.lt_succ_iff]
    exact List.length_filter_le _ _

/-- Denotation of `_independent_polynomial_recursive` with the source's
`int64` coefficient arithmetic (the `lru_cache` only avoids recomputation, it
does not change the value; `solveMemo` below makes the cache explicit). -/
def solveW (adj : ℕ → ℕ → Bool) : List ℕ → List ℤ
  | [] => [1]
  | node :: rest =>
    addShiftedW (solveW adj rest)
      (solveW adj (rest.filter fun n => !(adj node n)))
termination_by l => l.length
decreasing_by
  · simp
  · simp only [List.length_cons, Nat.lt_succ_iff]
    exact List.length_filter_le _ _

/-- The memo cache of `lru_cache`: an association list from vertex-sequence
keys to cached polynomials. -/
abbrev Cache := List (List ℕ × List ℤ)

/-- Cache lookup (the `lru_cache` hit test on the argument tuple). -/
def lookupC (c : Cache) (k : List ℕ) : Option (List ℤ) :=
  match c with
  | [] => none
  | (k', v) :: t => if k' = k then some v else lookupC t k

/-- `_independent_polynomial_recursive` with the `lru_cache` made explicit:
on every call the cache is consulted first (this is what the decorator does,
for the empty tuple as for any other key); on a miss the body runs, the
recursive calls threading the cache, and the result is stored under the
argument key. -/
def solveMemo (adj : ℕ → ℕ → Bool) (c : Cache) (nodes : List ℕ) :
    List ℤ × Cache :=
  match nodes with
  | [] =>
    match lookupC c [] with
    | some p => (p, c)
    | none => ([1], ([], [1]) :: c)
  | node :: rest =>
    match lookupC c (node :: rest) with
    | some p => (p, c)
    | none =>
      let r1 := solveMemo adj c rest
      let r2 := solveMemo adj r1.2 (rest.filter fun n => !(adj node n))
      let r := addShiftedW r1.1 r2.1
      (r, (node :: rest, r) :: r2.2)
termination_by nodes.length
decreasing_by
  · simp
  · simp only [List.length_cons, Nat.lt_succ_iff]
    exact List.length_filter_le _ _

/-- `solveMemo` with an explicit call-depth budget, modelling CPython's
recursion limit (`sys.setrecursionlimit(3000)` on line 22): every call
consumes one stack frame; when no frame is available the computation aborts
with `none` (a `RecursionError`) instead of producing a value. -/
def solveMemoD (adj : ℕ → ℕ → Bool) : ℕ → Cache → List ℕ →
    Option (List ℤ × Cache)
  | 0, _, _ => none
  | d + 1, c, nodes =>
    match lookupC c nodes with
    | some p => some (p, c)
    | none =>
      match nodes with
      | [] => some ([1], ([], [1]) :: c)
      | node :: rest =>
        match solveMemoD adj d c rest with
        | none => none
        | some r1 =>
          match solveMemoD adj d r1.2 (rest.filter fun n => !(adj node n)) with
          | none => none
          | some r2 =>
            let r := addShiftedW r1.1 r2.1
            some (r, (node :: rest, r) :: r2.2)

/-- The coefficient array `coefficients` computed on line 66 of
`find_ind_poly.py`: the memoized recursion run on the full node tuple with an
initially empty cache. -/
def coefficientsOf (adj : ℕ → ℕ → Bool) (nodes : List ℕ) : List ℤ :=
  (solveMemo adj [] nodes).1

/-- One rendered term of the output string (line 69): the coefficient
followed by `x^` and the degree for degree above 1, the coefficient followed
by a bare `x` for degree 1, and the bare coefficient for degree 0, each
formatted in decimal as Python string interpolation does. -/
def renderTerm (i : ℕ) (c : ℤ) : String :=
  if 1 < i then toString c ++ "x^" ++ toString i
  else if i = 1 then toString c ++ "x"
  else toString c

/-- The string rendering on lines 68-72: terms in increasing degree order,
keeping exactly the coefficients with `coeff > 0`, joined by `" + "`. -/
def renderPoly (coeffs : List ℤ) : String :=
  String.intercalate " + "
    (((coeffs.enum).filter (fun p => decide (0 < p.2))).map
      (fun p => renderTerm p.1 p.2))

/-- Rendering as the specification words it ("omitting exactly the terms
whose coefficient is zero"): identical to `renderPoly` except that the kept
terms are those with `coeff ≠ 0` rather than `coeff > 0`.  Used as the
comparison point for the refinement claim about the formatter. -/
def renderPolySpec (coeffs : List ℤ) : String :=
  String.intercalate " + "
    (((coeffs.enum).filter (fun p => decide (p.2 ≠ 0))).map
      (fun p => renderTerm p.1 p.2))

/-- The entry point `independence_polynomial` (lines 32-76): computes the
coefficient array by the memoized recursion and returns the rendered string
`poly_str` (the function's actual return value, line 76). -/
def independence_polynomial (adj : ℕ → ℕ → Bool) (nodes : List ℕ) : String :=
  renderPoly (coefficientsOf adj nodes)

/-- Number of independent vertex sets of size `k` among the vertices of `l`:
subsets of the vertex set in which no two distinct members are adjacent.
This is the combinatorial quantity the spec says each coefficient equals. -/
def indepCount (adj : ℕ → ℕ → Bool) (l : List ℕ) (k : ℕ) : ℕ :=
  (l.toFinset.powerset.filter
    (fun s => s.card = k ∧ ∀ u ∈ s, ∀ v ∈ s, u ≠ v → adj u v = false)).card

/-- The vertex sequences arising in the recursion started on `master`: the
master sequence itself, and, from any reached sequence `node :: rest`, the
exclude child `rest` and the include child `rest` with the pivot's neighbors
filtered out.  These are exactly the memo-cache keys of the computation. -/
inductive Reaches (adj : ℕ → ℕ → Bool) (master : List ℕ) : List ℕ → Prop
  | root : Reaches adj master master
  | exclude {node : ℕ} {rest : List ℕ} :
      Reaches adj master (node :: rest) → Reaches adj master rest
  | inc {node : ℕ} {rest : List ℕ} :
      Reaches adj master (node :: rest) →
      Reaches adj master (rest.filter fun n => !(adj node n))

/-- One step of Pascal's triangle: `pascalNext r` has entry `i` equal to
`r[i] + r[i-1]`. -/
def pascalNext (r : List ℕ) : List ℕ :=
  List.zipWith (· + ·) (r ++ [0]) (0 :: r)

/-- Row `n` of Pascal's triangle, `[C(n,0), …, C(n,n)]`: the exact
independence-polynomial coefficients of the edgeless graph on `n`
vertices. -/
def binomRow : ℕ → List ℕ
  | 0 => [1]
  | n + 1 => pascalNext (binomRow n)

/-- Adjacency of the edgeless graph (no vertex is adjacent to anything). -/
def edgeAdj : ℕ → ℕ → Bool := fun _ _ => false

/-- Adjacency of a graph whose only edge is a self-loop at vertex `0`. -/
def loopAdj : ℕ → ℕ → Bool := fun u v => decide (u = 0 ∧ v = 0)

/-- Adjacency of the 5-cycle on vertices `0, …, 4`
(`u ~ v` iff `v = u + 1 (mod 5)` or `u = v + 1 (mod 5)`). -/
def c5adj : ℕ → ℕ → Bool := fun u v => decide ((u + 1) % 5 = v ∨ (v + 1) % 5 = u)

/-- Node tuple of the 5-cycle. -/
def c5nodes : List ℕ := [0, 1, 2, 3, 4]

/-! ### Arithmetic and list plumbing -/

lemma wrap64_congr {a b : ℤ}
    (h : a % 18446744073709551616 = b % 18446744073709551616) :
    wrap64 a = wrap64 b := by
  unfold wrap64; omega

lemma wrap64_zero : wrap64 0 = 0 := by decide

lemma wrap64_one : wrap64 1 = 1 := by decide

lemma wrap64_wrap64 (a : ℤ) : wrap64 (wrap64 a) = wrap64 a := by
  unfold wrap64; omega

lemma wrap64_add (a b : ℤ) : wrap64 (wrap64 a + wrap64 b) = wrap64 (a + b) := by
  unfold wrap64; omega

lemma wrap64_eq_of_lt {z : ℤ} (h0 : 0 ≤ z) (h : z < 9223372036854775808) :
    wrap64 z = z := by
  unfold wrap64; omega

lemma wrap64_neg_of_big {z : ℤ} (h0 : 9223372036854775808 ≤ z)
    (h : z < 18446744073709551616) : wrap64 z = z - 18446744073709551616 := by
  unfold wrap64; omega

/-- Entry `k` of a list built as `map f` over `range n`, with default `d`
outside the range. -/
lemma getD_range_map {α : Type} (f : ℕ → α) (d : α) (n k : ℕ) :
    ((List.range n).map f).getD k d = if k < n then f k else d := by
  by_cases h : k < n
  · rw [List.getD_eq_getElem _ _ (by simpa using h)]
    simp [h]
  · rw [List.getD_eq_default _ _ (by simpa using Nat.le_of_not_lt h)]
    simp [h]

/-- Lists are equal when they have the same length and the same `getD`
entries at one fixed default. -/
lemma ext_of_getD {α : Type} (d : α) {l1 l2 : List α}
    (hlen : l1.length = l2.length)
    (h : ∀ i, l1.getD i d = l2.getD i d) : l1 = l2 := by
  refine List.ext_getElem hlen (fun i h1 h2 => ?_)
  have := h i
  rwa [List.getD_eq_getElem _ _ h1, List.getD_eq_getElem _ _ h2] at this

lemma addShifted_length (a b : List ℕ) :
    (addShifted a b).length = max a.length (b.length + 1) := by
  simp [addShifted]

lemma addShiftedW_length (a b : List ℤ) :
    (addShiftedW a b).length = max a.length (b.length + 1) := by
  simp [addShiftedW]

lemma addShifted_getD (a b : List ℕ) (k : ℕ) :
    (addShifted a b).getD k 0 =
      a.getD k 0 + if k = 0 then 0 else b.getD (k - 1) 0 := by
  unfold addShifted
  rw [getD_range_map]
  split
  · rfl
  · next hk =>
    have ha : a.length ≤ k := le_of_max_le_left (Nat.le_of_not_lt hk)
    have hb : b.length + 1 ≤ k := le_of_max_le_right (Nat.le_of_not_lt hk)
    rw [List.getD_eq_default _ _ ha, List.getD_eq_default _ _ (by omega)]
    simp

lemma addShiftedW_getD (a b : List ℤ) (k : ℕ) :
    (addShiftedW a b).getD k 0 =
      wrap64 (a.getD k 0 + if k = 0 then 0 else b.getD (k - 1) 0) := by
  unfold addShiftedW
  rw [getD_range_map]
  split
  · rfl
  · next hk =>
    have ha : a.length ≤ k := le_of_max_le_left (Nat.le_of_not_lt hk)
    have hb : b.length + 1 ≤ k := le_of_max_le_right (Nat.le_of_not_lt hk)
    rw [List.getD_eq_default _ _ ha, List.getD_eq_default _ _ (by omega)]
    simp [wrap64_zero]

/-! ### The deletion recurrence for independent-set counts -/

lemma indepCount_nil (adj : ℕ → ℕ → Bool) (k : ℕ) :
    indepCount adj [] k = if k = 0 then 1 else 0 := by
  classical
  unfold indepCount
  simp only [List.toFinset_nil, Finset.powerset_empty, Finset.filter_singleton]
  by_cases hk : k = 0
  · subst hk; simp
  · simp [Ne.symm hk, hk]

/-- Extending an independent set by a fresh vertex `v`: the extension is
independent iff the original set is independent and avoids all neighbors of
`v` (symmetry of the adjacency collapses the two directions). -/
lemma indep_insert_iff (adj : ℕ → ℕ → Bool)
    (hsym : ∀ u v, adj u v = adj v u) {v : ℕ} {s : Finset ℕ} (hv : v ∉ s) :
    (∀ u ∈ insert v s, ∀ w ∈ insert v s, u ≠ w → adj u w = false) ↔
      ((∀ w ∈ s, adj v w = false) ∧
        ∀ u ∈ s, ∀ w ∈ s, u ≠ w → adj u w = false) := by
  constructor
  · intro h
    refine ⟨fun w hw => h v (Finset.mem_insert_self v s) w
      (Finset.mem_insert_of_mem hw) ?_,
      fun u hu w hw hne => h u (Finset.mem_insert_of_mem hu) w
        (Finset.mem_insert_of_mem hw) hne⟩
    rintro rfl; exact hv hw
  · rintro ⟨h1, h2⟩ u hu w hw hne
    rcases Finset.mem_insert.mp hu with hu' | hu'
    · subst hu'
      rcases Finset.mem_insert.mp hw with hw' | hw'
      · exact absurd hw'.symm hne
      · exact h1 w hw'
    · rcases Finset.mem_insert.mp hw with hw' | hw'
      · subst hw'
        rw [hsym]; exact h1 u hu'
      · exact h2 u hu' w hw' hne

/-- Deletion recurrence on the counting side: the independent `k`-subsets of
`node :: rest` split into those avoiding `node` (counted on `rest`) and
those containing `node` (counted, one size lower, on `rest` with the
neighbors of `node` removed). -/
lemma indepCount_cons (adj : ℕ → ℕ → Bool)
    (hsym : ∀ u v, adj u v = adj v u)
    (node : ℕ) (rest : List ℕ) (hnode : node ∉ rest) (k : ℕ) :
    indepCount adj (node :: rest) k =
      indepCount adj rest k +
        if k = 0 then 0
        else indepCount adj (rest.filter fun n => !(adj node n)) (k - 1) := by
  classical
  have hvV : node ∉ rest.toFinset := by simpa using hnode
  unfold indepCount
  rw [List.toFinset_cons, Finset.powerset_insert, Finset.filter_union,
    Finset.card_union_of_disjoint ?hdisj]
  case hdisj =>
    rw [Finset.disjoint_left]
    intro s hs1 hs2
    have h1 : s ∈ rest.toFinset.powerset := (Finset.mem_filter.mp hs1).1
    obtain ⟨t, ht, rfl⟩ := Finset.mem_image.mp (Finset.mem_filter.mp hs2).1
    exact hvV (Finset.mem_powerset.mp h1 (Finset.mem_insert_self node t))
  congr 1
  rw [Finset.filter_image, Finset.card_image_of_injOn ?hinj]
  case hinj =>
    intro t1 h1 t2 h2 heq
    have ht1 : t1 ⊆ rest.toFinset :=
      Finset.mem_powerset.mp (Finset.mem_filter.mp (Finset.mem_coe.mp h1)).1
    have ht2 : t2 ⊆ rest.toFinset :=
      Finset.mem_powerset.mp (Finset.mem_filter.mp (Finset.mem_coe.mp h2)).1
    have hn1 : node ∉ t1 := fun h => hvV (ht1 h)
    have hn2 : node ∉ t2 := fun h => hvV (ht2 h)
    calc t1 = (insert node t1).erase node := (Finset.erase_insert hn1).symm
      _ = (insert node t2).erase node := by rw [heq]
      _ = t2 := Finset.erase_insert hn2
  by_cases hk : k = 0
  · subst hk
    rw [if_pos rfl, Finset.card_eq_zero]
    ext t
    simp only [Finset.mem_filter, Finset.mem_powerset, Finset.not_mem_empty,
      iff_false, not_and]
    intro _ h
    exact absurd (Finset.card_eq_zero.mp h) (Finset.insert_ne_empty node t)
  · rw [if_neg hk]
    congr 1
    rw [List.toFinset_filter]
    ext t
    simp only [Finset.mem_filter, Finset.mem_powerset]
    constructor
    · rintro ⟨htV, hcard, hind⟩
      have hnt : node ∉ t := fun h => hvV (htV h)
      obtain ⟨hadj, hindt⟩ := (indep_insert_iff adj hsym hnt).mp hind
      refine ⟨fun x hx => Finset.mem_filter.mpr ⟨htV hx, by simp [hadj x hx]⟩,
        ?_, hindt⟩
      have := Finset.card_insert_of_not_mem hnt
      omega
    · rintro ⟨htF, hcard, hindt⟩
      have htV : t ⊆ rest.toFinset := fun x hx =>
        (Finset.mem_filter.mp (htF hx)).1
      have hnt : node ∉ t := fun h => hvV (htV h)
      have hadj : ∀ w ∈ t, adj node w = false := fun w hw => by
        have := (Finset.mem_filter.mp (htF hw)).2
        simpa using this
      refine ⟨htV, ?_, (indep_insert_iff adj hsym hnt).mpr ⟨hadj, hindt⟩⟩
      rw [Finset.card_insert_of_not_mem hnt]
      omega

/-! ### Correctness of the exact recursion -/

lemma solveExact_cons (adj : ℕ → ℕ → Bool) (node : ℕ) (rest : List ℕ) :
    solveExact adj (node :: rest) =
      addShifted (solveExact adj rest)
        (solveExact adj (rest.filter fun n => !(adj node n))) := by
  simp [solveExact]

lemma solveW_cons (adj : ℕ → ℕ → Bool) (node : ℕ) (rest : List ℕ) :
    solveW adj (node :: rest) =
      addShiftedW (solveW adj rest)
        (solveW adj (rest.filter fun n => !(adj node n))) := by
  simp [solveW]

lemma solveExact_nil_getD (adj : ℕ → ℕ → Bool) (k : ℕ) :
    (solveExact adj ([] : List ℕ)).getD k 0 = indepCount adj [] k := by
  rw [indepCount_nil]
  simp only [solveExact]
  cases k <;> simp

/-- Main correctness of the recursion with exact integers: for a symmetric
adjacency and duplicate-free vertex list, entry `k` of the computed
polynomial is the number of independent `k`-subsets. -/
theorem solveExact_getD (adj : ℕ → ℕ → Bool)
    (hsym : ∀ u v, adj u v = adj v u) :
    ∀ l : List ℕ, l.Nodup → ∀ k,
      (solveExact adj l).getD k 0 = indepCount adj l k := by
  suffices H : ∀ (n : ℕ) (l : List ℕ), l.length ≤ n → l.Nodup → ∀ k,
      (solveExact adj l).getD k 0 = indepCount adj l k from
    fun l => H l.length l le_rfl
  intro n
  induction n with
  | zero =>
    intro l hl _ k
    obtain rfl : l = [] := List.length_eq_zero.mp (Nat.le_zero.mp hl)
    exact solveExact_nil_getD adj k
  | succ n ih =>
    intro l hl hnd k
    cases l with
    | nil => exact solveExact_nil_getD adj k
    | cons node rest =>
      obtain ⟨hnode, hndr⟩ := List.nodup_cons.mp hnd
      have hlr : rest.length ≤ n := by simpa using hl
      have hlf : (rest.filter fun m => !(adj node m)).length ≤ n :=
        le_trans (List.length_filter_le _ _) hlr
      rw [solveExact_cons, addShifted_getD, ih rest hlr hndr k,
        ih _ hlf (hndr.filter _) (k - 1),
        indepCount_cons adj hsym node rest hnode k]

/-! ### The int64 computation is the wrap of the exact computation -/

lemma getD_map_wrap (l : List ℕ) (k : ℕ) :
    ((l.map fun n : ℕ => wrap64 (n : ℤ)).getD k 0) =
      wrap64 ((l.getD k 0 : ℕ) : ℤ) := by
  by_cases h : k < l.length
  · rw [List.getD_eq_getElem _ _ (by simpa using h),
      List.getD_eq_getElem _ _ h]
    simp
  · rw [List.getD_eq_default _ _ (by simpa using Nat.le_of_not_lt h),
      List.getD_eq_default _ _ (Nat.le_of_not_lt h)]
    simp [wrap64_zero]

lemma addShiftedW_map (a b : List ℕ) :
    addShiftedW (a.map fun n : ℕ => wrap64 (n : ℤ))
        (b.map fun n : ℕ => wrap64 (n : ℤ)) =
      (addShifted a b).map (fun n : ℕ => wrap64 (n : ℤ)) := by
  refine ext_of_getD 0 ?_ ?_
  · rw [addShiftedW_length]
    simp [addShifted_length]
  · intro i
    rw [addShiftedW_getD, getD_map_wrap, getD_map_wrap, getD_map_wrap,
      addShifted_getD]
    push_cast
    by_cases hi : i = 0
    · simp only [if_pos hi, add_zero]
      exact wrap64_wrap64 _
    · simp only [if_neg hi]
      exact wrap64_add _ _

/-- The int64 computation agrees with the exact computation entrywise up to
two's-complement wrapping: each coefficient of `solveW` is the int64 wrap of
the corresponding exact coefficient. -/
theorem solveW_eq_map (adj : ℕ → ℕ → Bool) :
    ∀ l : List ℕ,
      solveW adj l = (solveExact adj l).map (fun n : ℕ => wrap64 (n : ℤ)) := by
  suffices H : ∀ (n : ℕ) (l : List ℕ), l.length ≤ n →
      solveW adj l = (solveExact adj l).map (fun n : ℕ => wrap64 (n : ℤ)) from
    fun l => H l.length l le_rfl
  intro n
  induction n with
  | zero =>
    intro l hl
    obtain rfl : l = [] := List.length_eq_zero.mp (Nat.le_zero.mp hl)
    simp [solveW, solveExact, wrap64_one]
  | succ n ih =>
    intro l hl
    cases l with
    | nil => simp [solveW, solveExact, wrap64_one]
    | cons node rest =>
      have hlr : rest.length ≤ n := by simpa using hl
      have hlf : (rest.filter fun m => !(adj node m)).length ≤ n :=
        le_trans (List.length_filter_le _ _) hlr
      rw [solveW_cons, solveExact_cons, ih rest hlr, ih _ hlf, addShiftedW_map]

/-! ### Memoization correctness -/

lemma lookupC_mem {c : Cache} {k : List ℕ} {v : List ℤ}
    (h : lookupC c k = some v) : (k, v) ∈ c := by
  induction c with
  | nil => simp [lookupC] at h
  | cons kv t ih =>
    obtain ⟨k', v'⟩ := kv
    simp only [lookupC] at h
    split at h
    · next heq =>
      obtain rfl : v' = v := Option.some.inj h
      subst heq
      exact List.mem_cons_self _ _
    · exact List.mem_cons_of_mem _ (ih h)

lemma solveMemo_cons_hit (adj : ℕ → ℕ → Bool) (c : Cache) (node : ℕ)
    (rest : List ℕ) (p : List ℤ) (hx : lookupC c (node :: rest) = some p) :
    solveMemo adj c (node :: rest) = (p, c) := by
  rw [solveMemo, hx]

lemma solveMemo_cons_miss (adj : ℕ → ℕ → Bool) (c : Cache) (node : ℕ)
    (rest : List ℕ) (hx : lookupC c (node :: rest) = none) :
    solveMemo adj c (node :: rest) =
      (let r1 := solveMemo adj c rest
       let r2 := solveMemo adj r1.2 (rest.filter fun n => !(adj node n))
       let r := addShiftedW r1.1 r2.1
       (r, (node :: rest, r) :: r2.2)) := by
  rw [solveMemo, hx]

lemma solveMemo_nil_hit (adj : ℕ → ℕ → Bool) (c : Cache) (p : List ℤ)
    (hx : lookupC c [] = some p) : solveMemo adj c [] = (p, c) := by
  rw [solveMemo, hx]

lemma solveMemo_nil_miss (adj : ℕ → ℕ → Bool) (c : Cache)
    (hx : lookupC c [] = none) :
    solveMemo adj c [] = ([1], ([], [1]) :: c) := by
  rw [solveMemo, hx]

/-- Correctness of the memoized computation: if every cached value is the
value of the plain recursion on its key, then the memoized run returns the
value of the plain recursion and preserves that cache invariant. -/
theorem solveMemo_spec (adj : ℕ → ℕ → Bool) :
    ∀ (l : List ℕ) (c : Cache), (∀ kv ∈ c, kv.2 = solveW adj kv.1) →
      (solveMemo adj c l).1 = solveW adj l ∧
        ∀ kv ∈ (solveMemo adj c l).2, kv.2 = solveW adj kv.1 := by
  suffices H : ∀ (n : ℕ) (l : List ℕ), l.length ≤ n → ∀ c : Cache,
      (∀ kv ∈ c, kv.2 = solveW adj kv.1) →
      (solveMemo adj c l).1 = solveW adj l ∧
        ∀ kv ∈ (solveMemo adj c l).2, kv.2 = solveW adj kv.1 from
    fun l => H l.length l le_rfl
  have hnil : ∀ c : Cache, (∀ kv ∈ c, kv.2 = solveW adj kv.1) →
      (solveMemo adj c []).1 = solveW adj [] ∧
        ∀ kv ∈ (solveMemo adj c []).2, kv.2 = solveW adj kv.1 := by
    intro c hc
    cases hx : lookupC c [] with
    | some p =>
      rw [solveMemo_nil_hit adj c p hx]
      exact ⟨hc _ (lookupC_mem hx), hc⟩
    | none =>
      rw [solveMemo_nil_miss adj c hx]
      refine ⟨by simp [solveW], ?_⟩
      intro kv hkv
      rcases List.mem_cons.mp hkv with rfl | hkv
      · simp [solveW]
      · exact hc kv hkv
  intro n
  induction n with
  | zero =>
    intro l hl
    obtain rfl : l = [] := List.length_eq_zero.mp (Nat.le_zero.mp hl)
    exact hnil
  | succ n ih =>
    intro l hl c hc
    cases l with
    | nil => exact hnil c hc
    | cons node rest =>
      cases hx : lookupC c (node :: rest) with
      | some p =>
        rw [solveMemo_cons_hit adj c node rest p hx]
        exact ⟨hc _ (lookupC_mem hx), hc⟩
      | none =>
        have hlr : rest.length ≤ n := by simpa using hl
        have hlf : (rest.filter fun m => !(adj node m)).length ≤ n :=
          le_trans (List.length_filter_le _ _) hlr
        obtain ⟨h1a, h1b⟩ := ih rest hlr c hc
        obtain ⟨h2a, h2b⟩ := ih _ hlf (solveMemo adj c rest).2 h1b
        rw [solveMemo_cons_miss adj c node rest hx]
        refine ⟨?_, ?_⟩
        · show addShiftedW (solveMemo adj c rest).1 _ = _
          rw [h1a, h2a, solveW_cons]
        · intro kv hkv
          rcases List.mem_cons.mp hkv with rfl | hkv
          · show addShiftedW _ _ = _
            rw [h1a, h2a, solveW_cons]
          · exact h2b kv hkv

/-- The coefficient array of the entry point is the value of the plain
(uncached) int64 recursion: the memo cache is a pure optimization. -/
theorem coefficientsOf_eq (adj : ℕ → ℕ → Bool) (nodes : List ℕ) :
    coefficientsOf adj nodes = solveW adj nodes :=
  (solveMemo_spec adj nodes [] (by simp)).1

/-! ### Fuel semantics: recursion depth -/

lemma solveMemoD_eq (adj : ℕ → ℕ → Bool) :
    ∀ (d : ℕ) (l : List ℕ) (c : Cache), l.length < d →
      solveMemoD adj d c l = some (solveMemo adj c l) := by
  intro d
  induction d with
  | zero => intro l c h; omega
  | succ d ih =>
    intro l c h
    cases l with
    | nil =>
      cases hx : lookupC c [] with
      | some p =>
        rw [solveMemo_nil_hit adj c p hx]
        simp [solveMemoD, hx]
      | none =>
        rw [solveMemo_nil_miss adj c hx]
        simp [solveMemoD, hx]
    | cons node rest =>
      cases hx : lookupC c (node :: rest) with
      | some p =>
        rw [solveMemo_cons_hit adj c node rest p hx]
        simp [solveMemoD, hx]
      | none =>
        have hlr : rest.length < d := by simp at h; omega
        have hlf : (rest.filter fun m => !(adj node m)).length < d :=
          lt_of_le_of_lt (List.length_filter_le _ _) hlr
        rw [solveMemo_cons_miss adj c node rest hx]
        simp only [solveMemoD, hx, ih rest c hlr, ih _ _ hlf]

/-- With fuel at most the sequence length, the leftmost (all-exclude) descent
of the recursion exhausts the stack before reaching the base case: starting
from an empty cache the computation aborts (RecursionError). -/
lemma solveMemoD_none (adj : ℕ → ℕ → Bool) :
    ∀ (d : ℕ) (l : List ℕ), d ≤ l.length → solveMemoD adj d [] l = none := by
  intro d
  induction d with
  | zero => intro l _; rfl
  | succ d ih =>
    intro l h
    cases l with
    | nil => simp at h
    | cons node rest =>
      have hx : lookupC ([] : Cache) (node :: rest) = none := rfl
      have hr : d ≤ rest.length := by simp at h; omega
      simp only [solveMemoD, hx, ih rest hr]

/-! ### Canonicality of the sequences arising in the recursion -/

/-- Every sequence arising in the recursion is a subsequence (order-preserving
selection) of the master ordering: children are obtained from their parent
only by dropping the head or by filtering, never by permuting. -/
lemma Reaches_sublist {adj : ℕ → ℕ → Bool} {master S : List ℕ}
    (h : Reaches adj master S) : S.Sublist master := by
  induction h with
  | root => exact List.Sublist.refl master
  | exclude _ ih => exact (List.sublist_cons_self _ _).trans ih
  | inc _ ih =>
    exact ((List.filter_sublist _).trans (List.sublist_cons_self _ _)).trans ih

/-- Two subsequences of a duplicate-free list that contain the same set of
elements are the same list. -/
lemma sublist_eq_of_toFinset_eq :
    ∀ (m S1 S2 : List ℕ), m.Nodup → S1.Sublist m → S2.Sublist m →
      S1.toFinset = S2.toFinset → S1 = S2 := by
  intro m
  induction m with
  | nil =>
    intro S1 S2 _ h1 h2 _
    rw [List.sublist_nil.mp h1, List.sublist_nil.mp h2]
  | cons a t ih =>
    intro S1 S2 hnd h1 h2 hset
    obtain ⟨hat, hndt⟩ := List.nodup_cons.mp hnd
    rcases List.sublist_cons_iff.mp h1 with h1' | ⟨s1, rfl, h1'⟩
    · rcases List.sublist_cons_iff.mp h2 with h2' | ⟨s2, rfl, h2'⟩
      · exact ih S1 S2 hndt h1' h2' hset
      · exfalso
        have ha1 : a ∈ S1.toFinset := by rw [hset]; simp
        exact hat (h1'.subset (List.mem_toFinset.mp ha1))
    · rcases List.sublist_cons_iff.mp h2 with h2' | ⟨s2, rfl, h2'⟩
      · exfalso
        have ha2 : a ∈ S2.toFinset := by rw [← hset]; simp
        exact hat (h2'.subset (List.mem_toFinset.mp ha2))
      · have hs1 : a ∉ s1 := fun h => hat (h1'.subset h)
        have hs2 : a ∉ s2 := fun h => hat (h2'.subset h)
        have : s1.toFinset = s2.toFinset := by
          have h1f : a ∉ s1.toFinset := by simpa using hs1
          have h2f : a ∉ s2.toFinset := by simpa using hs2
          have := hset
          rw [List.toFinset_cons, List.toFinset_cons] at this
          calc s1.toFinset = (insert a s1.toFinset).erase a :=
                (Finset.erase_insert h1f).symm
            _ = (insert a s2.toFinset).erase a := by rw [this]
            _ = s2.toFinset := Finset.erase_insert h2f
        rw [ih s1 s2 hndt h1' h2' this]

/-! ### Closed form on the edgeless graph (Pascal's triangle) -/

lemma pascalNext_getD (r : List ℕ) (i : ℕ) :
    (pascalNext r).getD i 0 =
      r.getD i 0 + if i = 0 then 0 else r.getD (i - 1) 0 := by
  unfold pascalNext
  by_cases h : i < r.length + 1
  · rw [List.getD_eq_getElem _ _ (by simp [List.length_zipWith]; omega)]
    rw [List.getElem_zipWith]
    congr 1
    · by_cases hi : i < r.length
      · rw [List.getElem_append_left hi, List.getD_eq_getElem _ _ hi]
      · have hie : i = r.length := by omega
        subst hie
        rw [List.getElem_append_right (le_refl r.length),
          List.getD_eq_default _ _ (le_refl r.length)]
        simp
    · cases i with
      | zero => simp
      | succ j =>
        rw [if_neg (Nat.succ_ne_zero j), List.getElem_cons_succ,
          Nat.add_sub_cancel, List.getD_eq_getElem _ _ (show j < r.length by omega)]
  · have hlen : (List.zipWith (· + ·) (r ++ [0]) (0 :: r)).length ≤ i := by
      simp [List.length_zipWith]; omega
    rw [List.getD_eq_default _ _ hlen,
      List.getD_eq_default _ _ (show r.length ≤ i by omega)]
    rcases Nat.eq_zero_or_pos i with rfl | hi
    · simp at h
    · rw [if_neg (by omega), List.getD_eq_default _ _ (by omega)]

lemma addShifted_self (r : List ℕ) : addShifted r r = pascalNext r := by
  refine ext_of_getD 0 ?_ ?_
  · rw [addShifted_length]
    simp [pascalNext, List.length_zipWith]
  · intro i
    rw [addShifted_getD, pascalNext_getD]

/-- On the edgeless graph the exact recursion computes Pascal's triangle:
row `n` of binomial coefficients for an `n`-vertex list. -/
lemma solveExact_edge : ∀ l : List ℕ, solveExact edgeAdj l = binomRow l.length := by
  intro l
  induction l with
  | nil => simp [solveExact, binomRow]
  | cons node rest ih =>
    rw [solveExact_cons]
    have hf : (rest.filter fun n => !(edgeAdj node n)) = rest := by
      simp [edgeAdj]
    rw [hf, ih, addShifted_self]
    simp [binomRow]

/-! ### The renderer -/

/-- On non-negative coefficient lists the source's `coeff > 0` filter agrees
with the specification's "omit exactly the zero coefficients". -/
lemma renderPoly_eq_spec (coeffs : List ℤ) (h : ∀ c ∈ coeffs, 0 ≤ c) :
    renderPoly coeffs = renderPolySpec coeffs := by
  have hfil : (coeffs.enum.filter (fun p => decide (0 < p.2))) =
      (coeffs.enum.filter (fun p => decide (p.2 ≠ 0))) := by
    apply List.filter_congr
    intro p hp
    have hp2 : p.2 ∈ coeffs := by
      rw [List.enum_eq_zip_range] at hp
      exact (List.of_mem_zip hp).2
    have h0 : 0 ≤ p.2 := h _ hp2
    rw [decide_eq_decide]
    omega
  unfold renderPoly renderPolySpec
  rw [hfil]

/-! ### Concrete evaluations shared by several results -/

lemma c5adj_symm : ∀ u v, c5adj u v = c5adj v u := fun u v => by
  unfold c5adj
  rw [decide_eq_decide]
  exact or_comm

lemma c5adj_irrefl : ∀ v, c5adj v v = false := by
  intro v
  unfold c5adj
  rw [decide_eq_false_iff_not]
  rintro (h | h) <;> omega

lemma coefficientsOf_c5 : coefficientsOf c5adj c5nodes = [1, 5, 5] := by
  have h3 : (solveMemoD c5adj 6 [] c5nodes).map Prod.fst =
      some [(1 : ℤ), 5, 5] := by decide
  rw [solveMemoD_eq c5adj 6 c5nodes [] (by decide)] at h3
  simpa [coefficientsOf] using h3

lemma coefficientsOf_loop : coefficientsOf loopAdj [0] = [1, 1] := by
  have h3 : (solveMemoD loopAdj 2 [] [0]).map Prod.fst =
      some [(1 : ℤ), 1] := by decide
  rw [solveMemoD_eq loopAdj 2 [0] [] (by decide)] at h3
  simpa [coefficientsOf] using h3

lemma edge67_exact : solveExact edgeAdj (List.range 67) = binomRow 67 := by
  rw [solveExact_edge, List.length_range]

/-- The degree-33 independent-set count of the edgeless graph on 67 vertices
is the binomial coefficient `C(67, 33)`, which exceeds `2^63 - 1`. -/
lemma edge67_count :
    indepCount edgeAdj (List.range 67) 33 = 14226520737620288370 := by
  rw [← solveExact_getD edgeAdj (fun _ _ => rfl) (List.range 67)
    (List.nodup_range 67) 33, edge67_exact]
  decide

/-- The degree-33 coefficient actually computed by the source (int64
arithmetic) on the edgeless graph on 67 vertices: the two's-complement wrap
of `C(67, 33)`, a negative number. -/
lemma edge67_coeff :
    (coefficientsOf edgeAdj (List.range 67)).getD 33 0 =
      -4220223336089263246 := by
  rw [coefficientsOf_eq, solveW_eq_map, getD_map_wrap, edge67_exact]
  rw [show (binomRow 67).getD 33 0 = 14226520737620288370 from by decide]
  decide

/-! ### Claim theorems -/

/-- C1, counterexample: the claim as stated ("for every simple undirected
graph the coefficient at degree `i` equals the number of independent sets of
size `i`") is false for the edgeless graph on 67 vertices: the number of
independent 33-subsets is `C(67, 33) = 14226520737620288370`, but the int64
coefficient computed by the code wraps to `-4220223336089263246`. -/
theorem c1_counterexample :
    (coefficientsOf edgeAdj (List.range 67)).getD 33 0 = -4220223336089263246 ∧
      indepCount edgeAdj (List.range 67) 33 = 14226520737620288370 ∧
      (coefficientsOf edgeAdj (List.range 67)).getD 33 0 ≠
        (indepCount edgeAdj (List.range 67) 33 : ℤ) := by
  refine ⟨edge67_coeff, edge67_count, ?_⟩
  rw [edge67_coeff, edge67_count]
  decide

/-- C1, amended: for every simple undirected graph (symmetric irreflexive
adjacency, duplicate-free node list), at each degree `k` whose
independent-set count fits below `2^63` (so that the int64 arithmetic does
not wrap) the coefficient computed by `independence_polynomial` equals the
number of independent vertex sets of size `k`; in particular for the 5-cycle
the computed polynomial is `1 + 5x + 5x^2` (see the witness). -/
theorem c1_amended (adj : ℕ → ℕ → Bool) (l : List ℕ)
    (hsym : ∀ u v, adj u v = adj v u) (_hirr : ∀ v, adj v v = false)
    (hnd : l.Nodup) :
    ∀ k, indepCount adj l k < 2 ^ 63 →
      (coefficientsOf adj l).getD k 0 = (indepCount adj l k : ℤ) := by
  intro k hk
  have hk' : indepCount adj l k < 9223372036854775808 := by
    norm_num at hk; exact hk
  rw [coefficientsOf_eq, solveW_eq_map, getD_map_wrap,
    solveExact_getD adj hsym l hnd k]
  exact wrap64_eq_of_lt (Int.natCast_nonneg _) (by exact_mod_cast hk')

/-- C1, witness: the amended theorem applied to the 5-cycle, whose computed
coefficient array is `[1, 5, 5]`, i.e. the polynomial `1 + 5x + 5x^2`. -/
theorem c1_witness :
    coefficientsOf c5adj c5nodes = [1, 5, 5] ∧
      indepCount c5adj c5nodes 2 = 5 ∧
      (coefficientsOf c5adj c5nodes).getD 2 0 =
        (indepCount c5adj c5nodes 2 : ℤ) :=
  ⟨coefficientsOf_c5, by decide,
    c1_amended c5adj c5nodes c5adj_symm c5adj_irrefl (by decide) 2 (by decide)⟩

/-- C2: the coefficient arithmetic is not exact arbitrary-precision integer
arithmetic — it is int64 arithmetic that silently wraps.  On the edgeless
graph on 67 vertices the degree-33 coefficient is the two's-complement wrap
of the true count `C(67, 33) ≥ 2^63`, which is negative. -/
theorem c2_overflow :
    (coefficientsOf edgeAdj (List.range 67)).getD 33 0 =
        wrap64 (indepCount edgeAdj (List.range 67) 33 : ℤ) ∧
      2 ^ 63 ≤ (indepCount edgeAdj (List.range 67) 33 : ℤ) ∧
      (coefficientsOf edgeAdj (List.range 67)).getD 33 0 < 0 := by
  refine ⟨?_, ?_, ?_⟩
  · rw [edge67_coeff, edge67_count]; decide
  · rw [edge67_count]; norm_num
  · rw [edge67_coeff]; decide

/-- C3: the recursion terminates within recursion depth `|V|`: a stack
budget of `|V| + 1` frames suffices for the whole computation (first
conjunct), because each recursive call strictly shrinks the sequence — the
exclude child drops the head and the include child additionally filters
(second conjunct). -/
theorem c3_termination :
    ∀ (adj : ℕ → ℕ → Bool) (l : List ℕ),
      solveMemoD adj (l.length + 1) [] l = some (solveMemo adj [] l) ∧
        ∀ (node : ℕ) (rest : List ℕ),
          rest.length < (node :: rest).length ∧
            (rest.filter fun n => !(adj node n)).length <
              (node :: rest).length := by
  intro adj l
  refine ⟨solveMemoD_eq adj _ l [] (Nat.lt_succ_self _), ?_⟩
  intro node rest
  constructor
  · simp
  · simp only [List.length_cons, Nat.lt_succ_iff]
    exact List.length_filter_le _ _

/-- C4: cache-key canonicality.  Every vertex sequence arising in the
recursion from a duplicate-free master ordering is a subsequence of that
master ordering, and any two such sequences containing the same set of
vertices are identical sequences. -/
theorem c4_canonical (adj : ℕ → ℕ → Bool) (master S1 S2 : List ℕ)
    (hnd : master.Nodup) (h1 : Reaches adj master S1)
    (h2 : Reaches adj master S2) (hset : S1.toFinset = S2.toFinset) :
    S1.Sublist master ∧ S2.Sublist master ∧ S1 = S2 :=
  ⟨Reaches_sublist h1, Reaches_sublist h2,
    sublist_eq_of_toFinset_eq master S1 S2 hnd (Reaches_sublist h1)
      (Reaches_sublist h2) hset⟩

/-- C4, witness: on master ordering `[0, 1]` of the edgeless graph, the
sequence `[1]` is reached both as an exclude child and as an include child;
the theorem yields that both are subsequences of the master and equal. -/
theorem c4_witness :
    ([1] : List ℕ).Sublist [0, 1] ∧ ([1] : List ℕ).Sublist [0, 1] ∧
      ([1] : List ℕ) = [1] :=
  c4_canonical edgeAdj [0, 1] [1] [1] (by decide)
    (Reaches.exclude Reaches.root) (Reaches.inc Reaches.root) rfl

/-- C5: at every recursive step on a non-empty sequence (a cache miss — on a
hit the stored value of the same step is returned), the result is
`addShifted(excludePoly, includePoly)`; and `addShifted` has length
`max (len a) (len b + 1)`, carries `a` elementwise on its indices and adds
`b`'s coefficient `j` at index `j + 1` (the addition being the source's
int64 addition). -/
theorem c5_addShifted (adj : ℕ → ℕ → Bool) (c : Cache) (node : ℕ)
    (rest : List ℕ) (hmiss : lookupC c (node :: rest) = none) :
    (solveMemo adj c (node :: rest)).1 =
        addShiftedW (solveMemo adj c rest).1
          (solveMemo adj (solveMemo adj c rest).2
            (rest.filter fun n => !(adj node n))).1 ∧
      ∀ a b : List ℤ,
        (addShiftedW a b).length = max a.length (b.length + 1) ∧
          ∀ j, (addShiftedW a b).getD j 0 =
            wrap64 (a.getD j 0 + if j = 0 then 0 else b.getD (j - 1) 0) := by
  refine ⟨?_, fun a b => ⟨addShiftedW_length a b, addShiftedW_getD a b⟩⟩
  rw [solveMemo_cons_miss adj c node rest hmiss]

/-- C5, witness: the theorem applied to the single-vertex graph with an
empty cache. -/
theorem c5_witness :
    ((solveMemo edgeAdj [] [0]).1 =
        addShiftedW (solveMemo edgeAdj [] []).1
          (solveMemo edgeAdj (solveMemo edgeAdj [] []).2
            (([] : List ℕ).filter fun n => !(edgeAdj 0 n))).1) ∧
      ∀ a b : List ℤ,
        (addShiftedW a b).length = max a.length (b.length + 1) ∧
          ∀ j, (addShiftedW a b).getD j 0 =
            wrap64 (a.getD j 0 + if j = 0 then 0 else b.getD (j - 1) 0) :=
  c5_addShifted edgeAdj [] 0 [] rfl

/-- C6, counterexample: the claim that the memo cache is never consulted nor
populated for the empty key is false — `lru_cache` decorates the whole
function, so the very first base-case call stores the empty key: running the
solver on the empty sequence with an empty cache leaves `([], [1])` in the
cache. -/
theorem c6_counterexample :
    (solveMemo edgeAdj [] ([] : List ℕ)).2 = [([], [1])] := by
  rw [solveMemo_nil_miss edgeAdj [] rfl]

/-- C6, amended: on the empty vertex sequence the solver returns `[1]`, and
the cache is consulted like for any key; on a miss the empty key is
populated with `[1]`. -/
theorem c6_amended (adj : ℕ → ℕ → Bool) (c : Cache)
    (hmiss : lookupC c [] = none) :
    solveMemo adj c [] = ([1], ([], [1]) :: c) :=
  solveMemo_nil_miss adj c hmiss

/-- C6, witness: the amended theorem at the empty cache. -/
theorem c6_witness :
    solveMemo loopAdj [] ([] : List ℕ) = ([1], [([], [1])]) :=
  c6_amended loopAdj [] rfl

/-- C7, counterexample: the entry point does not return the coefficient
sequence — it returns the formatted string: on the 5-cycle it returns
`"1 + 5x + 5x^2"` (and it accepts no configuration parameter: its signature
is graph data only). -/
theorem c7_counterexample :
    independence_polynomial c5adj c5nodes = "1 + 5x + 5x^2" := by
  show renderPoly (coefficientsOf c5adj c5nodes) = _
  rw [coefficientsOf_c5]
  decide

/-- C7, amended: the entry point takes only the graph (no config carrying
`maxCacheEntries`/`maxRecursionDepth` exists; the cache bound and recursion
limit are hard-coded) and returns the rendered string of the coefficient
sequence computed by the (int64) recursion. -/
theorem c7_amended (adj : ℕ → ℕ → Bool) (nodes : List ℕ) :
    independence_polynomial adj nodes =
      renderPoly ((solveExact adj nodes).map (fun n : ℕ => wrap64 (n : ℤ))) := by
  show renderPoly (coefficientsOf adj nodes) = _
  rw [coefficientsOf_eq, solveW_eq_map]

/-- C8, counterexample: no self-loop validation exists; for the graph with a
single vertex `0` carrying a self-loop the computation proceeds and returns
the polynomial `[1, 1]` — contradicting "no polynomial is returned". -/
theorem c8_counterexample : coefficientsOf loopAdj [0] = [1, 1] :=
  coefficientsOf_loop

/-- C8, amended: the code never validates the graph; on a graph with a
self-loop the computation runs to completion and returns a result (the
self-loop is silently ignored, because a pivot vertex never occurs in its
own remainder sequence). -/
theorem c8_amended : independence_polynomial loopAdj [0] = "1 + 1x" := by
  show renderPoly (coefficientsOf loopAdj [0]) = _
  rw [coefficientsOf_loop]
  decide

/-- C9, counterexample: the renderer omits all non-positive coefficients,
not exactly the zero ones: the term `-2x` has a nonzero coefficient but is
dropped (`renderPoly` vs the spec-worded `renderPolySpec`); and negative
final coefficients are actually reachable — the degree-33 coefficient of the
edgeless 67-vertex graph is negative after int64 wrapping. -/
theorem c9_counterexample :
    renderPoly [(1 : ℤ), -2] = "1" ∧
      renderPolySpec [(1 : ℤ), -2] = "1 + -2x" ∧
      (coefficientsOf edgeAdj (List.range 67)).getD 33 0 < 0 := by
  refine ⟨by decide, by decide, ?_⟩
  rw [edge67_coeff]
  decide

/-- C9, amended: the final coefficient sequence is rendered in increasing
degree order, degree 0 as a bare constant and degree 1 without exponent,
omitting the terms with non-positive coefficient — which is "exactly the
zero terms" whenever all coefficients are non-negative. -/
theorem c9_amended (coeffs : List ℤ) (h : ∀ c ∈ coeffs, 0 ≤ c) :
    renderPoly coeffs = renderPolySpec coeffs := by
  have hfil : (coeffs.enum.filter (fun p => decide (0 < p.2))) =
      (coeffs.enum.filter (fun p => decide (p.2 ≠ 0))) := by
    apply List.filter_congr
    intro p hp
    have hp2 : p.2 ∈ coeffs := by
      rw [List.enum_eq_zip_range] at hp
      exact (List.of_mem_zip hp).2
    have h0 : 0 ≤ p.2 := h _ hp2
    rw [decide_eq_decide]
    omega
  show String.intercalate " + " _ = String.intercalate " + " _
  rw [hfil]

/-- C9, witness: the amended theorem at the 5-cycle coefficients
`[1, 5, 5]`, rendered as `1 + 5x + 5x^2`. -/
theorem c9_witness :
    renderPoly [(1 : ℤ), 5, 5] = renderPolySpec [(1 : ℤ), 5, 5] ∧
      renderPoly [(1 : ℤ), 5, 5] = "1 + 5x + 5x^2" :=
  ⟨c9_amended [1, 5, 5] (by decide), by decide⟩

/-- C10: with the interpreter recursion limit fixed at 3000 and `overhead`
stack frames already consumed by the caller, every graph whose vertex count
reaches the remaining budget makes the computation abort with a
RecursionError (`none`) instead of returning a result. -/
theorem c10_depth_limit (overhead : ℕ) (adj : ℕ → ℕ → Bool) (l : List ℕ)
    (h : 3000 ≤ overhead + l.length) :
    solveMemoD adj (3000 - overhead) [] l = none :=
  solveMemoD_none adj _ l (by omega)

/-- C10, witness: a 3000-vertex graph with no caller overhead aborts. -/
theorem c10_witness :
    solveMemoD edgeAdj (3000 - 0) [] (List.range 3000) = none :=
  c10_depth_limit 0 edgeAdj (List.range 3000) (by simp)

end FindIndPoly
